import Mathlib

set_option linter.unusedVariables false

/-!
Verification development for the sso-profiles repository.

The configuration document (`configparser::ini::Ini` backed by
`indexmap::IndexMap`) is embedded as an insertion-ordered association list
with unique keys; all `IndexMap` operations used by the source are modelled
by their documented behaviour (`remove` is `swap_remove`, `insert` keeps the
position of an existing key, otherwise appends).
-/

/-- Models Rust `str::starts_with` with a string pattern: the pattern's
character sequence is a prefix of the string's. -/
def strStartsWith (s pat : String) : Bool := pat.data.isPrefixOf s.data

/-- Models Rust `str::replace(' ', "-")` as called in merge (lib.rs 208):
every space character becomes a hyphen. -/
def replaceSpaces (s : String) : String := ⟨s.data.map (fun c => if c = ' ' then '-' else c)⟩

/-- One INI section: an insertion-ordered list of key/value pairs,
modelling `IndexMap<String, Option<String>>`. -/
abbrev IniSection := List (String × Option String)

/-- The document's section map, modelling
`IndexMap<String, IndexMap<String, Option<String>>>`. -/
abbrev IniMap := List (String × IniSection)

/-- Models the `SSOProfile` struct (lib.rs 7-14). -/
structure SSOProfile where
  account_id : String
  account_name : String
  role_name : String
  start_url : String
  sso_region : String
  deriving Repr, DecidableEq

/-- Models `From<&SSOProfile> for IndexMap<String, Option<String>>`
(lib.rs 16-26): the four fixed keys, in insertion order. -/
def sectionOf (p : SSOProfile) : IniSection :=
  [("sso_start_url", some p.start_url),
   ("sso_region", some p.sso_region),
   ("sso_account_id", some p.account_id),
   ("sso_role_name", some p.role_name)]

/-- Keys of the section map in insertion order (`IndexMap::keys`). -/
def iniKeys (m : IniMap) : List String := m.map Prod.fst

/-- Lookup by key (`IndexMap::get`); keys are unique in an `IndexMap`. -/
def lookupKey (k : String) : IniMap → Option IniSection
  | [] => none
  | e :: rest => if e.1 = k then some e.2 else lookupKey k rest

/-- Models `IndexMap::contains_key`. -/
def containsKey (k : String) (m : IniMap) : Bool := (lookupKey k m).isSome

/-- Models `IndexMap::remove`, which indexmap documents as `swap_remove`:
the removed entry's slot is filled by the map's last entry and the map
shrinks by one. On the association list: the first entry with key `k` is
replaced by the last entry of the remainder (no-op when `k` is absent). -/
def swapRemove (k : String) : IniMap → IniMap
  | [] => []
  | e :: rest =>
    if e.1 = k then
      match rest.getLast? with
      | none => []
      | some x => x :: rest.dropLast
    else e :: swapRemove k rest

/-- Models `IndexMap::insert`: when the key is already present the value is
updated in place (the entry keeps its position); otherwise the pair is
appended at the end. -/
def insertIM (k : String) (v : IniSection) (m : IniMap) : IniMap :=
  if containsKey k m then m.map (fun e => if e.1 = k then (e.1, v) else e)
  else m ++ [(k, v)]

/-- Models the `AwsConfigMerger` struct (lib.rs 184-187); the source field
`prefix` is a Lean keyword and is called `pfx` here. -/
structure AwsConfigMerger where
  pfx : String
  clean : Bool
  deriving Repr, DecidableEq

/-- Models `AwsConfigMerger::prefix_name` (lib.rs 225-227). -/
def AwsConfigMerger.prefix_name (g : AwsConfigMerger) (profile_name : String) : String :=
  g.pfx ++ profile_name

/-- Models `AwsConfigMerger::section_name` (lib.rs 229-231). -/
def AwsConfigMerger.section_name (g : AwsConfigMerger) (profile_name : String) : String :=
  "profile " ++ profile_name

/-- The bare profile name computed in merge (lib.rs 208): the account name
with every space replaced by a hyphen, a hyphen, then the role name. -/
def bare_profile_name (p : SSOProfile) : String :=
  replaceSpaces p.account_name ++ "-" ++ p.role_name

/-- The section key merge computes for a profile (lib.rs 208-210). -/
def AwsConfigMerger.keyOf (g : AwsConfigMerger) (p : SSOProfile) : String :=
  g.section_name (g.prefix_name (bare_profile_name p))

/-- One iteration of merge's profile loop (lib.rs 207-220): on a key collision
the existing section is removed (`IndexMap::remove`, i.e. swap_remove), then
the new section is inserted. -/
def AwsConfigMerger.mergeStep (g : AwsConfigMerger) (m : IniMap) (p : SSOProfile) : IniMap :=
  let sk := g.keyOf p
  let m1 := if containsKey sk m then swapRemove sk m else m
  insertIM sk (sectionOf p) m1

/-- The clean loop of merge (lib.rs 193-205): iterate over a snapshot of the
keys taken before any removal, swap_remove-ing every key that starts with the
clean pattern `"profile " ++ prefix`. -/
def cleanPass (pat : String) (m : IniMap) (ks : List String) : IniMap :=
  ks.foldl (fun acc key => if strStartsWith key pat then swapRemove key acc else acc) m

/-- Models `AwsConfigMerger::merge` (lib.rs 190-223) acting on the document's
section map; the Rust function mutates the map in place and always returns
`Ok(())`, so the model returns the updated map. -/
def AwsConfigMerger.merge (g : AwsConfigMerger) (profiles : List SSOProfile) (m : IniMap) : IniMap :=
  let m0 := if g.clean then cleanPass (g.section_name (g.prefix_name "")) m (iniKeys m) else m
  profiles.foldl g.mergeStep m0

/-- The last profile of a list whose computed section key is `k`; the profile
whose content survives in the merged document under that key. -/
def lastProfileFor (g : AwsConfigMerger) (k : String) : List SSOProfile → Option SSOProfile
  | [] => none
  | p :: ps =>
    match lastProfileFor g k ps with
    | some q => some q
    | none => if g.keyOf p = k then some p else none

/-! ### Device code flow: the token polling loop (lib.rs 99-127) -/

/-- One provider response to a create_token request: the explicit
"authorization pending" service error, a successful token output (whose
access token field may be absent), or any other service or transport error
carrying its message. -/
inductive TokenResponse where
  | pending
  | success (access_token : Option String)
  | failure (err : String)
  deriving Repr, DecidableEq

/-- Observable outcome of the polling loop: the returned result, the number of
token requests issued, and the millisecond sleep durations, in order. -/
structure PollResult where
  result : Except String String
  requests : Nat
  sleeps_ms : List Nat
  deriving Repr

/-- Models the token polling loop of device_code_flow (lib.rs 99-121) together
with the access-token extraction (lib.rs 123-127), driven by a script of
provider responses. Each loop iteration sleeps 1000 ms and then sends one
request; an "authorization pending" error continues the loop, a success
breaks out of the loop with the token output (a protocol error when the
access token field is absent), and any other error breaks with that error.
An exhausted script, on which the real loop would block forever waiting for
the next response, yields a marker error; theorems only use scripts holding
a terminal response. -/
def poll_for_token : List TokenResponse → PollResult
  | [] => ⟨Except.error "script exhausted", 0, []⟩
  | TokenResponse.pending :: rest =>
    let r := poll_for_token rest
    ⟨r.result, r.requests + 1, 1000 :: r.sleeps_ms⟩
  | TokenResponse.success tok :: _ =>
    match tok with
    | some t => ⟨Except.ok t, 1, [1000]⟩
    | none => ⟨Except.error "Token output provided no access token", 1, [1000]⟩
  | TokenResponse.failure e :: _ => ⟨Except.error e, 1, [1000]⟩

/-! ### Profile discovery (lib.rs 131-181) -/

/-- An account item from the list_accounts paginator (both response fields
are optional). -/
structure AccountInfo where
  account_id : Option String
  account_name : Option String
  deriving Repr, DecidableEq

/-- A role item from a list_account_roles page (the name is optional). -/
structure RoleInfo where
  role_name : Option String
  deriving Repr, DecidableEq

/-- One page of the list_account_roles paginator; its role list is optional. -/
structure RolePage where
  role_list : Option (List RoleInfo)
  deriving Repr, DecidableEq

/-- A scripted provider: the flattened item stream of the list_accounts
paginator (an error item models a failed page fetch), and per account id the
page stream of the list_account_roles paginator. -/
structure Provider where
  accounts : List (Except String AccountInfo)
  roles : String → List (Except String RolePage)

/-- Models the `SSOProfilesLister` struct (lib.rs 28-31). -/
structure SSOProfilesLister where
  sso_region : String
  start_url : String
  deriving Repr, DecidableEq

/-- The for-loop over one page's role list (lib.rs 161-176): validate each
role's name and build one profile per role, carrying the enclosing account's
id and name and the lister's start URL and region. -/
def profilesFromRoles (l : SSOProfilesLister) (aid aname : String) :
    List RoleInfo → Except String (List SSOProfile)
  | [] => Except.ok []
  | r :: rs =>
    match r.role_name with
    | none => Except.error "Role does not have a name"
    | some rn =>
      match profilesFromRoles l aid aname rs with
      | Except.error e => Except.error e
      | Except.ok ps => Except.ok (⟨aid, aname, rn, l.start_url, l.sso_region⟩ :: ps)

/-- The while-loop over role pages for one account (lib.rs 160-177): a failed
page fetch or an absent role list aborts with that error. -/
def profilesFromPages (l : SSOProfilesLister) (aid aname : String) :
    List (Except String RolePage) → Except String (List SSOProfile)
  | [] => Except.ok []
  | Except.error e :: _ => Except.error e
  | Except.ok pg :: pgs =>
    match pg.role_list with
    | none => Except.error "Role list not available"
    | some rs =>
      match profilesFromRoles l aid aname rs with
      | Except.error e => Except.error e
      | Except.ok here =>
        match profilesFromPages l aid aname pgs with
        | Except.error e => Except.error e
        | Except.ok rest => Except.ok (here ++ rest)

/-- The outer while-loop over account items (lib.rs 144-178): validate the
account's id and name, fully drain its roles, then move to the next account;
the first error aborts the whole enumeration. -/
def discoverAccounts (l : SSOProfilesLister) (prov : Provider) :
    List (Except String AccountInfo) → Except String (List SSOProfile)
  | [] => Except.ok []
  | Except.error e :: _ => Except.error e
  | Except.ok a :: evs =>
    match a.account_id with
    | none => Except.error "Account id is missing"
    | some aid =>
      match a.account_name with
      | none => Except.error "Account is missing its name"
      | some aname =>
        match profilesFromPages l aid aname (prov.roles aid) with
        | Except.error e => Except.error e
        | Except.ok here =>
          match discoverAccounts l prov evs with
          | Except.error e => Except.error e
          | Except.ok rest => Except.ok (here ++ rest)

/-- Models `SSOProfilesLister::list_sso_profiles` (lib.rs 131-181) against a
scripted provider; the accumulated vector either comes back whole or is
discarded by the first error. -/
def SSOProfilesLister.list_sso_profiles (l : SSOProfilesLister) (prov : Provider) :
    Except String (List SSOProfile) :=
  discoverAccounts l prov prov.accounts

/-- A role item is present (its name field exists; emptiness is not checked). -/
def goodRole (r : RoleInfo) : Bool := r.role_name.isSome

/-- A role page was fetched and carries a role list of present roles. -/
def goodPage : Except String RolePage → Bool
  | Except.error _ => false
  | Except.ok pg =>
    match pg.role_list with
    | none => false
    | some rs => rs.all goodRole

/-- An account item was fetched, carries both fields, and all of its role
pages are good. -/
def goodAccountItem (prov : Provider) : Except String AccountInfo → Bool
  | Except.error _ => false
  | Except.ok a =>
    match a.account_id, a.account_name with
    | some aid, some _ => (prov.roles aid).all goodPage
    | _, _ => false

/-- Every scripted item of the provider is present and complete: no failed
page fetches and no absent fields. Empty strings are allowed. -/
def wellFormed (prov : Provider) : Bool := prov.accounts.all (goodAccountItem prov)

/-- Stated from the spec's words (§4.2, §5): the output the discovery contract
promises — the provider's account order, then within each account the
provider's role order, one profile per role carrying the enclosing account's
id/name and the caller's start URL/region, with no sorting or deduplication. -/
def expectedFromRoles (l : SSOProfilesLister) (aid aname : String) :
    List RoleInfo → List SSOProfile
  | [] => []
  | r :: rs =>
    match r.role_name with
    | some rn => ⟨aid, aname, rn, l.start_url, l.sso_region⟩ :: expectedFromRoles l aid aname rs
    | none => expectedFromRoles l aid aname rs

/-- Spec-side expected profiles of one account's page stream, in page order. -/
def expectedFromPages (l : SSOProfilesLister) (aid aname : String) :
    List (Except String RolePage) → List SSOProfile
  | [] => []
  | Except.error _ :: pgs => expectedFromPages l aid aname pgs
  | Except.ok pg :: pgs =>
    expectedFromRoles l aid aname (pg.role_list.getD []) ++ expectedFromPages l aid aname pgs

/-- Spec-side expected profiles of an account item stream, in account order. -/
def expectedProfilesOf (l : SSOProfilesLister) (prov : Provider) :
    List (Except String AccountInfo) → List SSOProfile
  | [] => []
  | Except.error _ :: evs => expectedProfilesOf l prov evs
  | Except.ok a :: evs =>
    (match a.account_id, a.account_name with
     | some aid, some aname => expectedFromPages l aid aname (prov.roles aid)
     | _, _ => []) ++ expectedProfilesOf l prov evs

/-- Spec-side expected discovery output for a whole provider script. -/
def expectedOutput (l : SSOProfilesLister) (prov : Provider) : List SSOProfile :=
  expectedProfilesOf l prov prov.accounts

/-! ### Association-list lemmas for the `IndexMap` model -/

theorem iniKeys_nil : iniKeys [] = [] := rfl

theorem iniKeys_cons (e : String × IniSection) (rest : IniMap) :
    iniKeys (e :: rest) = e.1 :: iniKeys rest := rfl

theorem iniKeys_append (l₁ l₂ : IniMap) :
    iniKeys (l₁ ++ l₂) = iniKeys l₁ ++ iniKeys l₂ :=
  List.map_append _ _ _

theorem lookupKey_nil (k : String) : lookupKey k [] = none := rfl

theorem lookupKey_cons (k : String) (e : String × IniSection) (rest : IniMap) :
    lookupKey k (e :: rest) = if e.1 = k then some e.2 else lookupKey k rest := rfl

theorem swapRemove_cons (k : String) (e : String × IniSection) (rest : IniMap) :
    swapRemove k (e :: rest) =
      if e.1 = k then
        match rest.getLast? with
        | none => []
        | some x => x :: rest.dropLast
      else e :: swapRemove k rest := rfl

theorem lookupKey_eq_none_iff {k : String} {m : IniMap} :
    lookupKey k m = none ↔ k ∉ iniKeys m := by
  induction m with
  | nil => simp [lookupKey_nil, iniKeys_nil]
  | cons e rest ih =>
    rw [lookupKey_cons, iniKeys_cons]
    by_cases h : e.1 = k
    · subst h
      simp
    · rw [if_neg h, List.mem_cons, ih]
      constructor
      · rintro hk (hh | hm)
        · exact h hh.symm
        · exact hk hm
      · exact fun hk hm => hk (Or.inr hm)

theorem containsKey_iff {k : String} {m : IniMap} :
    containsKey k m = true ↔ k ∈ iniKeys m := by
  rw [containsKey, Option.isSome_iff_ne_none, ne_eq, lookupKey_eq_none_iff, not_not]

theorem containsKey_eq_false_iff {k : String} {m : IniMap} :
    containsKey k m = false ↔ k ∉ iniKeys m := by
  rw [← Bool.not_eq_true, containsKey_iff]

theorem lookupKey_append_some {k : String} {l₁ l₂ : IniMap} {v : IniSection}
    (h : lookupKey k l₁ = some v) : lookupKey k (l₁ ++ l₂) = some v := by
  induction l₁ with
  | nil => rw [lookupKey_nil] at h; exact Option.noConfusion h
  | cons e rest ih =>
    rw [lookupKey_cons] at h
    rw [List.cons_append, lookupKey_cons]
    by_cases he : e.1 = k
    · rw [if_pos he] at h ⊢
      exact h
    · rw [if_neg he] at h ⊢
      exact ih h

theorem lookupKey_append_none {k : String} {l₁ l₂ : IniMap}
    (h : lookupKey k l₁ = none) : lookupKey k (l₁ ++ l₂) = lookupKey k l₂ := by
  induction l₁ with
  | nil => rfl
  | cons e rest ih =>
    rw [lookupKey_cons] at h
    rw [List.cons_append, lookupKey_cons]
    by_cases he : e.1 = k
    · rw [if_pos he] at h
      exact Option.noConfusion h
    · rw [if_neg he] at h ⊢
      exact ih h

/-- Moving the last element to the front is a permutation. -/
theorem cons_dropLast_perm {α : Type} (l : List α) (x : α) (h : l.getLast? = some x) :
    List.Perm (x :: l.dropLast) l := by
  have hx : l.dropLast ++ [x] = l := List.dropLast_append_getLast? x (by rw [h]; rfl)
  have h2 : List.Perm (x :: l.dropLast) (l.dropLast ++ [x]) := by
    simpa using (@List.perm_middle _ x l.dropLast []).symm
  rwa [hx] at h2

theorem swapRemove_of_not_mem {k : String} {m : IniMap} (h : k ∉ iniKeys m) :
    swapRemove k m = m := by
  induction m with
  | nil => rfl
  | cons e rest ih =>
    rw [iniKeys_cons, List.mem_cons, not_or] at h
    have hne : ¬ e.1 = k := fun he => h.1 he.symm
    rw [swapRemove_cons, if_neg hne, ih h.2]

theorem mem_iniKeys_swapRemove {a k : String} {m : IniMap}
    (h : a ∈ iniKeys (swapRemove k m)) : a ∈ iniKeys m := by
  induction m with
  | nil => exact h
  | cons e rest ih =>
    rw [swapRemove_cons] at h
    by_cases he : e.1 = k
    · rw [if_pos he] at h
      cases hl : rest.getLast? with
      | none =>
        rw [hl] at h
        exact absurd h (by simp [iniKeys_nil])
      | some x =>
        rw [hl] at h
        have hp := (cons_dropLast_perm rest x hl).map Prod.fst
        have hm : a ∈ iniKeys rest := hp.mem_iff.mp h
        rw [iniKeys_cons]
        exact List.mem_cons_of_mem _ hm
    · rw [if_neg he, iniKeys_cons] at h
      rw [iniKeys_cons]
      rcases List.mem_cons.mp h with hh | hh
      · exact List.mem_cons.mpr (Or.inl hh)
      · exact List.mem_cons.mpr (Or.inr (ih hh))

theorem iniKeys_swapRemove_nodup {k : String} {m : IniMap}
    (h : (iniKeys m).Nodup) : (iniKeys (swapRemove k m)).Nodup := by
  induction m with
  | nil => exact h
  | cons e rest ih =>
    rw [iniKeys_cons, List.nodup_cons] at h
    rw [swapRemove_cons]
    by_cases he : e.1 = k
    · rw [if_pos he]
      cases hl : rest.getLast? with
      | none => simp [iniKeys_nil]
      | some x =>
        have hp := (cons_dropLast_perm rest x hl).map Prod.fst
        exact hp.nodup_iff.mpr h.2
    · rw [if_neg he, iniKeys_cons, List.nodup_cons]
      exact ⟨fun hmem => h.1 (mem_iniKeys_swapRemove hmem), ih h.2⟩

theorem lookupKey_swapRemove_self {k : String} {m : IniMap}
    (h : (iniKeys m).Nodup) : lookupKey k (swapRemove k m) = none := by
  induction m with
  | nil => rfl
  | cons e rest ih =>
    rw [iniKeys_cons, List.nodup_cons] at h
    rw [swapRemove_cons]
    by_cases he : e.1 = k
    · rw [if_pos he]
      cases hl : rest.getLast? with
      | none => rfl
      | some x =>
        refine lookupKey_eq_none_iff.mpr (fun hmem => ?_)
        have hp := (cons_dropLast_perm rest x hl).map Prod.fst
        refine h.1 ?_
        rw [he]
        exact hp.mem_iff.mp hmem
    · rw [if_neg he, lookupKey_cons, if_neg he]
      exact ih h.2

theorem lookupKey_swapRemove_ne {p k : String} {m : IniMap}
    (h : (iniKeys m).Nodup) (hne : p ≠ k) :
    lookupKey p (swapRemove k m) = lookupKey p m := by
  induction m with
  | nil => rfl
  | cons e rest ih =>
    rw [iniKeys_cons, List.nodup_cons] at h
    rw [swapRemove_cons]
    by_cases he : e.1 = k
    · have hek : ¬ e.1 = p := fun hh => hne (hh.symm.trans he)
      rw [if_pos he, lookupKey_cons, if_neg hek]
      cases hl : rest.getLast? with
      | none =>
        rw [List.getLast?_eq_none_iff] at hl
        subst hl
        rfl
      | some x =>
        have hrest : rest.dropLast ++ [x] = rest :=
          List.dropLast_append_getLast? x (by rw [hl]; rfl)
        have hnodup2 : (iniKeys rest.dropLast ++ iniKeys [x]).Nodup := by
          rw [← iniKeys_append, hrest]
          exact h.2
        cases hc : lookupKey p rest.dropLast with
        | some v =>
          have hpmem : p ∈ iniKeys rest.dropLast := by
            by_contra hcon
            rw [← lookupKey_eq_none_iff, hc] at hcon
            exact Option.noConfusion hcon
          have hx1 : ¬ x.1 = p := by
            intro hxk
            have hdisj := (List.nodup_append.mp hnodup2).2.2
            refine hdisj hpmem ?_
            rw [iniKeys_cons, iniKeys_nil, hxk]
            exact List.mem_singleton_self p
          rw [lookupKey_cons, if_neg hx1, hc]
          conv_rhs => rw [← hrest, lookupKey_append_some hc]
        | none =>
          rw [lookupKey_cons]
          conv_rhs => rw [← hrest, lookupKey_append_none hc, lookupKey_cons, lookupKey_nil]
          by_cases hx1 : x.1 = p
          · rw [if_pos hx1, if_pos hx1]
          · rw [if_neg hx1, if_neg hx1, hc]
    · rw [if_neg he, lookupKey_cons, lookupKey_cons]
      by_cases hep : e.1 = p
      · rw [if_pos hep, if_pos hep]
      · rw [if_neg hep, if_neg hep]
        exact ih h.2

theorem containsKey_swapRemove_self {k : String} {m : IniMap}
    (h : (iniKeys m).Nodup) : containsKey k (swapRemove k m) = false := by
  rw [containsKey, lookupKey_swapRemove_self h]
  rfl

theorem insertIM_of_not_contains {k : String} {v : IniSection} {m : IniMap}
    (h : containsKey k m = false) : insertIM k v m = m ++ [(k, v)] := by
  simp [insertIM, h]

/-! ### The merge loop -/

theorem mergeStep_eq {g : AwsConfigMerger} {m : IniMap} {p : SSOProfile}
    (h : (iniKeys m).Nodup) :
    g.mergeStep m p =
      (if containsKey (g.keyOf p) m then swapRemove (g.keyOf p) m else m)
        ++ [(g.keyOf p, sectionOf p)] := by
  have hf : containsKey (g.keyOf p)
      (if containsKey (g.keyOf p) m then swapRemove (g.keyOf p) m else m) = false := by
    cases hc : containsKey (g.keyOf p) m with
    | true =>
      rw [if_pos rfl]
      exact containsKey_swapRemove_self h
    | false =>
      rw [if_neg Bool.false_ne_true]
      exact hc
  simp only [AwsConfigMerger.mergeStep]
  rw [insertIM_of_not_contains hf]

theorem iniKeys_mergeStep_nodup {g : AwsConfigMerger} {m : IniMap} {p : SSOProfile}
    (h : (iniKeys m).Nodup) : (iniKeys (g.mergeStep m p)).Nodup := by
  have hm1 : (iniKeys (if containsKey (g.keyOf p) m then
      swapRemove (g.keyOf p) m else m)).Nodup := by
    cases hc : containsKey (g.keyOf p) m with
    | true =>
      rw [if_pos rfl]
      exact iniKeys_swapRemove_nodup h
    | false =>
      rw [if_neg Bool.false_ne_true]
      exact h
  have hnm : g.keyOf p ∉ iniKeys (if containsKey (g.keyOf p) m then
      swapRemove (g.keyOf p) m else m) := by
    cases hc : containsKey (g.keyOf p) m with
    | true =>
      rw [if_pos rfl]
      exact lookupKey_eq_none_iff.mp (lookupKey_swapRemove_self h)
    | false =>
      rw [if_neg Bool.false_ne_true]
      exact containsKey_eq_false_iff.mp hc
  rw [mergeStep_eq h, iniKeys_append]
  refine List.nodup_append.mpr ⟨hm1, List.nodup_singleton _, ?_⟩
  intro a ha hb
  rw [iniKeys_cons, iniKeys_nil, List.mem_singleton] at hb
  subst hb
  exact hnm ha

theorem lookupKey_mergeStep {g : AwsConfigMerger} {m : IniMap} {p : SSOProfile} {k : String}
    (h : (iniKeys m).Nodup) :
    lookupKey k (g.mergeStep m p)
      = if k = g.keyOf p then some (sectionOf p) else lookupKey k m := by
  rw [mergeStep_eq h]
  by_cases hk : k = g.keyOf p
  · subst hk
    rw [if_pos rfl]
    have hnone : lookupKey (g.keyOf p)
        (if containsKey (g.keyOf p) m then swapRemove (g.keyOf p) m else m) = none := by
      cases hc : containsKey (g.keyOf p) m with
      | true =>
        rw [if_pos rfl]
        exact lookupKey_swapRemove_self h
      | false =>
        rw [if_neg Bool.false_ne_true]
        exact lookupKey_eq_none_iff.mpr (containsKey_eq_false_iff.mp hc)
    rw [lookupKey_append_none hnone, lookupKey_cons, if_pos rfl]
  · rw [if_neg hk]
    have hm1 : lookupKey k (if containsKey (g.keyOf p) m then
        swapRemove (g.keyOf p) m else m) = lookupKey k m := by
      cases hc : containsKey (g.keyOf p) m with
      | true =>
        rw [if_pos rfl]
        exact lookupKey_swapRemove_ne h hk
      | false =>
        rw [if_neg Bool.false_ne_true]
    cases hv : lookupKey k (if containsKey (g.keyOf p) m then
        swapRemove (g.keyOf p) m else m) with
    | some v =>
      rw [lookupKey_append_some hv, ← hm1, hv]
    | none =>
      rw [lookupKey_append_none hv, lookupKey_cons, lookupKey_nil,
        if_neg (fun hh => hk hh.symm), ← hm1, hv]

theorem iniKeys_foldl_mergeStep_nodup {g : AwsConfigMerger} {ps : List SSOProfile} :
    ∀ {m : IniMap}, (iniKeys m).Nodup → (iniKeys (ps.foldl g.mergeStep m)).Nodup := by
  induction ps with
  | nil => exact fun h => h
  | cons p ps ih =>
    intro m h
    rw [List.foldl_cons]
    exact ih (iniKeys_mergeStep_nodup h)

theorem lookupKey_foldl_mergeStep {g : AwsConfigMerger} {k : String} {ps : List SSOProfile} :
    ∀ {m : IniMap}, (iniKeys m).Nodup →
    lookupKey k (ps.foldl g.mergeStep m) =
      match lastProfileFor g k ps with
      | some q => some (sectionOf q)
      | none => lookupKey k m := by
  induction ps with
  | nil => exact fun _ => rfl
  | cons p ps ih =>
    intro m h
    rw [List.foldl_cons, ih (iniKeys_mergeStep_nodup h)]
    cases hq : lastProfileFor g k ps with
    | some q => simp only [lastProfileFor, hq]
    | none =>
      simp only [lastProfileFor, hq]
      rw [lookupKey_mergeStep h]
      by_cases hk : g.keyOf p = k
      · subst hk
        simp
      · rw [if_neg (fun hh => hk hh.symm)]
        simp only [if_neg hk]

theorem lastProfileFor_eq_none {g : AwsConfigMerger} {k : String} {ps : List SSOProfile}
    (hins : ∀ p ∈ ps, g.keyOf p ≠ k) : lastProfileFor g k ps = none := by
  induction ps with
  | nil => rfl
  | cons p ps ih =>
    simp only [lastProfileFor, ih (fun q hq => hins q (List.mem_cons_of_mem p hq))]
    rw [if_neg (hins p (List.mem_cons_self p ps))]

theorem lastProfileFor_isSome_of_mem {g : AwsConfigMerger} {ps : List SSOProfile}
    {p : SSOProfile} (hp : p ∈ ps) :
    (lastProfileFor g (g.keyOf p) ps).isSome = true := by
  induction ps with
  | nil => exact absurd hp (List.not_mem_nil p)
  | cons q ps ih =>
    simp only [lastProfileFor]
    cases hq : lastProfileFor g (g.keyOf p) ps with
    | some r => rfl
    | none =>
      rcases List.mem_cons.mp hp with hpq | hmem
      · subst hpq
        rw [if_pos rfl]
        rfl
      · have hsome := ih hmem
        rw [hq] at hsome
        exact absurd hsome (by simp)

/-! ### The clean loop -/

theorem cleanPass_nil (pat : String) (m : IniMap) : cleanPass pat m [] = m := rfl

theorem cleanPass_cons (pat : String) (m : IniMap) (key : String) (ks : List String) :
    cleanPass pat m (key :: ks) =
      cleanPass pat (if strStartsWith key pat then swapRemove key m else m) ks := rfl

theorem iniKeys_cleanPass_nodup {pat : String} {ks : List String} :
    ∀ {m : IniMap}, (iniKeys m).Nodup → (iniKeys (cleanPass pat m ks)).Nodup := by
  induction ks with
  | nil => exact fun h => h
  | cons key ks ih =>
    intro m h
    rw [cleanPass_cons]
    refine ih ?_
    cases hc : strStartsWith key pat with
    | true =>
      rw [if_pos rfl]
      exact iniKeys_swapRemove_nodup h
    | false =>
      rw [if_neg Bool.false_ne_true]
      exact h

theorem lookupKey_cleanPass_of_none {pat k : String} {ks : List String} :
    ∀ {m : IniMap}, lookupKey k m = none → lookupKey k (cleanPass pat m ks) = none := by
  induction ks with
  | nil => exact fun h => h
  | cons key ks ih =>
    intro m h
    rw [cleanPass_cons]
    refine ih ?_
    cases hc : strStartsWith key pat with
    | true =>
      rw [if_pos rfl]
      rw [lookupKey_eq_none_iff] at h ⊢
      exact fun hmem => h (mem_iniKeys_swapRemove hmem)
    | false =>
      rw [if_neg Bool.false_ne_true]
      exact h

theorem lookupKey_cleanPass_removed {pat k : String} {ks : List String} :
    ∀ {m : IniMap}, (iniKeys m).Nodup → k ∈ ks → strStartsWith k pat = true →
    lookupKey k (cleanPass pat m ks) = none := by
  induction ks with
  | nil => exact fun _ hk _ => absurd hk (List.not_mem_nil k)
  | cons key ks ih =>
    intro m h hk hs
    rw [cleanPass_cons]
    by_cases hkey : k = key
    · subst hkey
      rw [hs, if_pos rfl]
      exact lookupKey_cleanPass_of_none (lookupKey_swapRemove_self h)
    · have hk' : k ∈ ks := by
        rcases List.mem_cons.mp hk with h1 | h1
        · exact absurd h1 hkey
        · exact h1
      cases hc : strStartsWith key pat with
      | true =>
        rw [if_pos rfl]
        exact ih (iniKeys_swapRemove_nodup h) hk' hs
      | false =>
        rw [if_neg Bool.false_ne_true]
        exact ih h hk' hs

theorem lookupKey_cleanPass_other {pat k : String} {ks : List String} :
    ∀ {m : IniMap}, (iniKeys m).Nodup → strStartsWith k pat = false →
    lookupKey k (cleanPass pat m ks) = lookupKey k m := by
  induction ks with
  | nil => exact fun _ _ => rfl
  | cons key ks ih =>
    intro m h hs
    rw [cleanPass_cons]
    cases hc : strStartsWith key pat with
    | true =>
      rw [if_pos rfl]
      have hne : k ≠ key := by
        intro hh
        subst hh
        rw [hs] at hc
        exact Bool.noConfusion hc
      rw [ih (iniKeys_swapRemove_nodup h) hs, lookupKey_swapRemove_ne h hne]
    | false =>
      rw [if_neg Bool.false_ne_true]
      exact ih h hs

/-! ### Unfoldings of merge -/

theorem merge_clean_eq {g : AwsConfigMerger} {ps : List SSOProfile} {m : IniMap}
    (h : g.clean = true) :
    g.merge ps m =
      ps.foldl g.mergeStep (cleanPass (g.section_name (g.prefix_name "")) m (iniKeys m)) := by
  simp [AwsConfigMerger.merge, h]

theorem merge_not_clean_eq {g : AwsConfigMerger} {ps : List SSOProfile} {m : IniMap}
    (h : g.clean = false) :
    g.merge ps m = ps.foldl g.mergeStep m := by
  simp [AwsConfigMerger.merge, h]

theorem clean_pattern_eq (g : AwsConfigMerger) :
    g.section_name (g.prefix_name "") = "profile " ++ g.pfx := by
  rw [AwsConfigMerger.section_name, AwsConfigMerger.prefix_name, String.append_empty]

/-! ### Claim theorems: the merge algorithm -/

/-- C5: with `clean` set, merge first removes exactly the existing sections
whose name starts with "profile " followed by the configured prefix, leaving
the presence and content of every other section unchanged (including
discovered-profile sections under a different prefix); the profile
insertions happen only afterwards, on the cleaned document. -/
theorem merge_clean_scoped {g : AwsConfigMerger} {m : IniMap}
    (hclean : g.clean = true) (h : (iniKeys m).Nodup) :
    (∀ ps, g.merge ps m = ps.foldl g.mergeStep (g.merge [] m)) ∧
    (∀ k, lookupKey k (g.merge [] m) =
      if strStartsWith k ("profile " ++ g.pfx) = true then none else lookupKey k m) := by
  constructor
  · intro ps
    rw [merge_clean_eq hclean, merge_clean_eq hclean, List.foldl_nil]
  · intro k
    rw [merge_clean_eq hclean, List.foldl_nil, clean_pattern_eq]
    cases hs : strStartsWith k ("profile " ++ g.pfx) with
    | true =>
      rw [if_pos rfl]
      by_cases hmem : k ∈ iniKeys m
      · exact lookupKey_cleanPass_removed h hmem hs
      · exact lookupKey_cleanPass_of_none (lookupKey_eq_none_iff.mpr hmem)
    | false =>
      rw [if_neg Bool.false_ne_true]
      exact lookupKey_cleanPass_other h hs

/-- C5 witness: on the document with sections "profile a-x", "profile b-y",
"other-section", a clean merge with prefix "a-" removes only "profile a-x";
the other two sections keep their contents. -/
theorem merge_clean_scoped_witness :
    lookupKey "profile a-x"
        (AwsConfigMerger.merge ⟨"a-", true⟩ []
          [("profile a-x", []), ("profile b-y", [("b", some "1")]),
           ("other-section", [("c", some "2")])]) = none ∧
    lookupKey "profile b-y"
        (AwsConfigMerger.merge ⟨"a-", true⟩ []
          [("profile a-x", []), ("profile b-y", [("b", some "1")]),
           ("other-section", [("c", some "2")])]) = some [("b", some "1")] ∧
    lookupKey "other-section"
        (AwsConfigMerger.merge ⟨"a-", true⟩ []
          [("profile a-x", []), ("profile b-y", [("b", some "1")]),
           ("other-section", [("c", some "2")])]) = some [("c", some "2")] := by
  have h := merge_clean_scoped (g := ⟨"a-", true⟩)
      (m := [("profile a-x", []), ("profile b-y", [("b", some "1")]),
             ("other-section", [("c", some "2")])]) rfl (by decide)
  exact ⟨(h.2 "profile a-x").trans (by decide),
    (h.2 "profile b-y").trans (by decide),
    (h.2 "other-section").trans (by decide)⟩

/-- C4 counterexample: `IndexMap::remove` is swap_remove, so cleaning
"profile a-x" moves the then-last section "other-section" into its slot. The
two sections the merge neither removes nor overwrites, "profile b-y" and
"other-section", come back in the opposite relative order, refuting the
claim that their relative order is unchanged. -/
theorem merge_order_counterexample :
    AwsConfigMerger.merge ⟨"a-", true⟩ []
        [("profile a-x", [("k", some "a")]),
         ("profile b-y", [("k", some "b")]),
         ("other-section", [("k", some "c")])]
      = [("other-section", [("k", some "c")]),
         ("profile b-y", [("k", some "b")])] := by
  rfl

/-- C4 amended: removals during clean and collision handling use swap-remove,
which moves the then-last section into the removed slot; so merge preserves
the presence and contents of every section it does not remove or overwrite,
but not in general their relative order. -/
theorem merge_frame_contents {g : AwsConfigMerger} {ps : List SSOProfile} {m : IniMap}
    {k : String} (h : (iniKeys m).Nodup)
    (hclean : g.clean = true → strStartsWith k ("profile " ++ g.pfx) = false)
    (hins : ∀ p ∈ ps, g.keyOf p ≠ k) :
    lookupKey k (g.merge ps m) = lookupKey k m := by
  have hlast := lastProfileFor_eq_none hins
  cases hcl : g.clean with
  | true =>
    rw [merge_clean_eq hcl, lookupKey_foldl_mergeStep (iniKeys_cleanPass_nodup h), hlast]
    have hs : strStartsWith k (g.section_name (g.prefix_name "")) = false := by
      rw [clean_pattern_eq]
      exact hclean hcl
    exact lookupKey_cleanPass_other h hs
  | false =>
    rw [merge_not_clean_eq hcl, lookupKey_foldl_mergeStep h, hlast]

/-- C4 amended witness: a section that is neither cleaned nor overwritten
keeps its content across a clean merge. -/
theorem merge_frame_contents_witness :
    lookupKey "other-section"
        (AwsConfigMerger.merge ⟨"a-", true⟩ []
          [("profile a-x", []), ("other-section", [("region", some "x")])])
      = some [("region", some "x")] := by
  have h := merge_frame_contents (g := ⟨"a-", true⟩)
      (m := [("profile a-x", []), ("other-section", [("region", some "x")])])
      (k := "other-section") (by decide) (fun _ => by decide)
      (fun p hp => absurd hp (List.not_mem_nil p))
  exact h.trans (by decide)

/-- C6: re-merging the same profile list with clean unset is idempotent on the
set of sections: after the second merge every key holds the same content as
after the first, the keys stay unique, and every profile's derived section
key is present — exactly one section per unique derived key, with the second
merge's content. -/
theorem merge_remerge_idempotent {g : AwsConfigMerger} {ps : List SSOProfile} {m : IniMap}
    (hclean : g.clean = false) (h : (iniKeys m).Nodup) :
    (∀ k, lookupKey k (g.merge ps (g.merge ps m)) = lookupKey k (g.merge ps m)) ∧
    (iniKeys (g.merge ps (g.merge ps m))).Nodup ∧
    (∀ p ∈ ps, containsKey (g.keyOf p) (g.merge ps (g.merge ps m)) = true) := by
  have h1 : (iniKeys (g.merge ps m)).Nodup := by
    rw [merge_not_clean_eq hclean]
    exact iniKeys_foldl_mergeStep_nodup h
  refine ⟨?_, ?_, ?_⟩
  · intro k
    rw [merge_not_clean_eq hclean, lookupKey_foldl_mergeStep h1]
    cases hq : lastProfileFor g k ps with
    | some q =>
      rw [merge_not_clean_eq hclean, lookupKey_foldl_mergeStep h, hq]
    | none => rfl
  · rw [merge_not_clean_eq hclean]
    exact iniKeys_foldl_mergeStep_nodup h1
  · intro p hp
    obtain ⟨q, hq⟩ := Option.isSome_iff_exists.mp (lastProfileFor_isSome_of_mem (g := g) hp)
    rw [containsKey, merge_not_clean_eq hclean, lookupKey_foldl_mergeStep h1, hq]
    rfl

/-- C6 witness: double merge of the §8 "Dev Team"/Admin profile yields the
same section content as a single merge. -/
theorem merge_remerge_idempotent_witness :
    lookupKey "profile Dev-Team-Admin"
        (AwsConfigMerger.merge ⟨"", false⟩
          [⟨"111", "Dev Team", "Admin", "https://x.awsapps.com/start", "us-east-1"⟩]
          (AwsConfigMerger.merge ⟨"", false⟩
            [⟨"111", "Dev Team", "Admin", "https://x.awsapps.com/start", "us-east-1"⟩] []))
      = lookupKey "profile Dev-Team-Admin"
          (AwsConfigMerger.merge ⟨"", false⟩
            [⟨"111", "Dev Team", "Admin", "https://x.awsapps.com/start", "us-east-1"⟩] []) :=
  (@merge_remerge_idempotent ⟨"", false⟩
    [⟨"111", "Dev Team", "Admin", "https://x.awsapps.com/start", "us-east-1"⟩] [] rfl
    (by decide)).1 "profile Dev-Team-Admin"

/-- C7: when a profile's section key already exists, the merge step removes
the old section (swap_remove) and appends the new one at the back: the
result is exactly the swap-removed map followed by the new entry, that entry
is the last section, and the old key occurrence is gone before the insert. -/
theorem merge_overwrite_moves_to_end {g : AwsConfigMerger} {m : IniMap} {p : SSOProfile}
    (h : (iniKeys m).Nodup) (hc : containsKey (g.keyOf p) m = true) :
    g.mergeStep m p = swapRemove (g.keyOf p) m ++ [(g.keyOf p, sectionOf p)] ∧
    (g.mergeStep m p).getLast? = some (g.keyOf p, sectionOf p) ∧
    containsKey (g.keyOf p) (swapRemove (g.keyOf p) m) = false := by
  have h1 : g.mergeStep m p = swapRemove (g.keyOf p) m ++ [(g.keyOf p, sectionOf p)] := by
    rw [mergeStep_eq h, hc, if_pos rfl]
  refine ⟨h1, ?_, containsKey_swapRemove_self h⟩
  rw [h1, List.getLast?_concat]

/-- C7 witness: overwriting an existing "profile Dev-Team-Admin" section
moves it to the end of the document order with the new content. -/
theorem merge_overwrite_moves_to_end_witness :
    AwsConfigMerger.mergeStep ⟨"", false⟩
        [("profile Dev-Team-Admin", [("sso_region", some "old")]), ("other-section", [])]
        ⟨"111", "Dev Team", "Admin", "u", "r"⟩
      = [("other-section", []),
         ("profile Dev-Team-Admin",
          [("sso_start_url", some "u"), ("sso_region", some "r"),
           ("sso_account_id", some "111"), ("sso_role_name", some "Admin")])] := by
  have h := merge_overwrite_moves_to_end (g := ⟨"", false⟩)
      (m := [("profile Dev-Team-Admin", [("sso_region", some "old")]), ("other-section", [])])
      (p := ⟨"111", "Dev Team", "Admin", "u", "r"⟩) (by decide) (by decide)
  exact h.1.trans (by decide)

/-- C8: every section the merge loop inserts for a profile has the name
"profile " ++ prefix ++ (account name with spaces replaced by hyphens) ++
"-" ++ role name, and exactly the four fixed keys sso_start_url, sso_region,
sso_account_id, sso_role_name in that order, with the profile's field values
verbatim. -/
theorem merged_section_shape {g : AwsConfigMerger} {m : IniMap} {p : SSOProfile}
    (h : (iniKeys m).Nodup) :
    (g.mergeStep m p).getLast? =
      some ("profile " ++ (g.pfx ++ (replaceSpaces p.account_name ++ "-" ++ p.role_name)),
        [("sso_start_url", some p.start_url),
         ("sso_region", some p.sso_region),
         ("sso_account_id", some p.account_id),
         ("sso_role_name", some p.role_name)]) := by
  rw [mergeStep_eq h, List.getLast?_concat]
  rfl

/-- C8 witness: the §8 example profile inserted under prefix "x-". -/
theorem merged_section_shape_witness :
    (AwsConfigMerger.mergeStep ⟨"x-", false⟩ []
        ⟨"111", "Dev Team", "Admin", "https://x.awsapps.com/start", "us-east-1"⟩).getLast?
      = some ("profile x-Dev-Team-Admin",
        [("sso_start_url", some "https://x.awsapps.com/start"),
         ("sso_region", some "us-east-1"),
         ("sso_account_id", some "111"),
         ("sso_role_name", some "Admin")]) := by
  have h := merged_section_shape (g := ⟨"x-", false⟩) (m := [])
      (p := ⟨"111", "Dev Team", "Admin", "https://x.awsapps.com/start", "us-east-1"⟩)
      (by decide)
  exact h.trans (by decide)

/-- C10: the section-key mapping is not injective — the distinct pairs
("Dev Team", "Admin") and ("Dev", "Team-Admin") both yield the key
"profile Dev-Team-Admin"; merging both profiles leaves one section holding
the later profile's content, so the merged document has fewer sections (1)
than input profiles (2). -/
theorem section_key_not_injective :
    (("Dev Team" : String), ("Admin" : String)) ≠ (("Dev" : String), ("Team-Admin" : String)) ∧
    AwsConfigMerger.keyOf ⟨"", false⟩ ⟨"111", "Dev Team", "Admin", "u", "r"⟩
      = AwsConfigMerger.keyOf ⟨"", false⟩ ⟨"222", "Dev", "Team-Admin", "u", "r"⟩ ∧
    AwsConfigMerger.merge ⟨"", false⟩
        [⟨"111", "Dev Team", "Admin", "u", "r"⟩, ⟨"222", "Dev", "Team-Admin", "u", "r"⟩] []
      = [("profile Dev-Team-Admin",
          [("sso_start_url", some "u"), ("sso_region", some "r"),
           ("sso_account_id", some "222"), ("sso_role_name", some "Team-Admin")])] ∧
    (AwsConfigMerger.merge ⟨"", false⟩
        [⟨"111", "Dev Team", "Admin", "u", "r"⟩, ⟨"222", "Dev", "Team-Admin", "u", "r"⟩]
        []).length = 1 := by
  exact ⟨by decide, rfl, rfl, rfl⟩

/-! ### Claim theorems: the token polling loop -/

theorem replicate_append_singleton {α : Type} (n : Nat) (a : α) :
    List.replicate n a ++ [a] = List.replicate (n + 1) a := by
  induction n with
  | zero => rfl
  | succ n ih =>
    rw [List.replicate_succ, List.cons_append, ih]
    rfl

theorem poll_replicate_pending (s : List TokenResponse) :
    ∀ n, poll_for_token (List.replicate n TokenResponse.pending ++ s) =
      ⟨(poll_for_token s).result, (poll_for_token s).requests + n,
       List.replicate n 1000 ++ (poll_for_token s).sleeps_ms⟩ := by
  intro n
  induction n with
  | zero => simp
  | succ n ih =>
    rw [List.replicate_succ, List.cons_append]
    have hstep : poll_for_token
        (TokenResponse.pending :: (List.replicate n TokenResponse.pending ++ s)) =
        ⟨(poll_for_token (List.replicate n TokenResponse.pending ++ s)).result,
         (poll_for_token (List.replicate n TokenResponse.pending ++ s)).requests + 1,
         1000 :: (poll_for_token (List.replicate n TokenResponse.pending ++ s)).sleeps_ms⟩ := rfl
    rw [hstep, ih]
    simp [List.replicate_succ, Nat.add_assoc]

/-- C1: the polling loop is exactly the three-state machine: after any number
of "authorization pending" responses (each followed by a fixed 1000 ms sleep
before the next request) the first successful response returns its access
token having issued exactly one request per consumed response; an absent
token field yields the protocol error; any other error is surfaced
immediately with no further requests. In particular the script
[pending, pending, success "T"] issues exactly 3 requests and returns "T". -/
theorem poll_for_token_state_machine :
    (∀ (n : Nat) (s : List TokenResponse) (t : String),
      poll_for_token
          (List.replicate n TokenResponse.pending ++ TokenResponse.success (some t) :: s)
        = ⟨Except.ok t, n + 1, List.replicate (n + 1) 1000⟩) ∧
    (∀ (n : Nat) (s : List TokenResponse) (e : String),
      poll_for_token
          (List.replicate n TokenResponse.pending ++ TokenResponse.failure e :: s)
        = ⟨Except.error e, n + 1, List.replicate (n + 1) 1000⟩) ∧
    (∀ (n : Nat) (s : List TokenResponse),
      poll_for_token
          (List.replicate n TokenResponse.pending ++ TokenResponse.success none :: s)
        = ⟨Except.error "Token output provided no access token", n + 1,
           List.replicate (n + 1) 1000⟩) ∧
    poll_for_token
        [TokenResponse.pending, TokenResponse.pending, TokenResponse.success (some "T")]
      = ⟨Except.ok "T", 3, [1000, 1000, 1000]⟩ := by
  refine ⟨fun n s t => ?_, fun n s e => ?_, fun n s => ?_, by rfl⟩
  · rw [poll_replicate_pending]
    show (⟨Except.ok t, (1 : Nat) + n, List.replicate n 1000 ++ [1000]⟩ : PollResult) = _
    rw [replicate_append_singleton, Nat.add_comm 1 n]
  · rw [poll_replicate_pending]
    show (⟨Except.error e, (1 : Nat) + n, List.replicate n 1000 ++ [1000]⟩ : PollResult) = _
    rw [replicate_append_singleton, Nat.add_comm 1 n]
  · rw [poll_replicate_pending]
    show (⟨Except.error "Token output provided no access token", (1 : Nat) + n,
      List.replicate n 1000 ++ [1000]⟩ : PollResult) = _
    rw [replicate_append_singleton, Nat.add_comm 1 n]

/-! ### Claim theorems: discovery -/

theorem profilesFromRoles_of_good {l : SSOProfilesLister} {aid aname : String}
    {rs : List RoleInfo} (h : rs.all goodRole = true) :
    profilesFromRoles l aid aname rs = Except.ok (expectedFromRoles l aid aname rs) := by
  induction rs with
  | nil => rfl
  | cons r rs ih =>
    rw [List.all_cons, Bool.and_eq_true] at h
    cases hr : r.role_name with
    | none => exact absurd h.1 (by simp [goodRole, hr])
    | some rn =>
      simp only [profilesFromRoles, expectedFromRoles, hr, ih h.2]

theorem profilesFromPages_of_good {l : SSOProfilesLister} {aid aname : String}
    {pgs : List (Except String RolePage)} (h : pgs.all goodPage = true) :
    profilesFromPages l aid aname pgs = Except.ok (expectedFromPages l aid aname pgs) := by
  induction pgs with
  | nil => rfl
  | cons pg pgs ih =>
    rw [List.all_cons, Bool.and_eq_true] at h
    cases pg with
    | error e => exact absurd h.1 (by simp [goodPage])
    | ok page =>
      cases hrl : page.role_list with
      | none => exact absurd h.1 (by simp [goodPage, hrl])
      | some rs =>
        have hrs : rs.all goodRole = true := by simpa [goodPage, hrl] using h.1
        simp only [profilesFromPages, expectedFromPages, hrl, Option.getD_some,
          profilesFromRoles_of_good hrs, ih h.2]

theorem discoverAccounts_of_good {l : SSOProfilesLister} {prov : Provider} :
    ∀ {evs : List (Except String AccountInfo)}, evs.all (goodAccountItem prov) = true →
    discoverAccounts l prov evs = Except.ok (expectedProfilesOf l prov evs) := by
  intro evs
  induction evs with
  | nil => exact fun _ => rfl
  | cons ev evs ih =>
    intro h
    rw [List.all_cons, Bool.and_eq_true] at h
    cases ev with
    | error e => exact absurd h.1 (by simp [goodAccountItem])
    | ok a =>
      cases hid : a.account_id with
      | none => exact absurd h.1 (by simp [goodAccountItem, hid])
      | some aid =>
        cases hname : a.account_name with
        | none => exact absurd h.1 (by simp [goodAccountItem, hid, hname])
        | some aname =>
          have hpg : (prov.roles aid).all goodPage = true := by
            simpa [goodAccountItem, hid, hname] using h.1
          simp only [discoverAccounts, expectedProfilesOf, hid, hname,
            profilesFromPages_of_good hpg, ih h.2]

/-- C9: on a well-formed provider script, discovery returns exactly the
spec-side expected output: the provider's account order, within each account
the provider's role order, no sorting or deduplication, each profile carrying
its enclosing account's id and name and the caller's start URL and region. -/
theorem discover_order_and_content {l : SSOProfilesLister} {prov : Provider}
    (h : wellFormed prov = true) :
    l.list_sso_profiles prov = Except.ok (expectedOutput l prov) :=
  discoverAccounts_of_good h

/-- C9 witness: the §8 end-to-end example with accounts "Dev Team" (111,
role Admin) and "Prod" (222, role Viewer). -/
theorem discover_order_and_content_witness :
    SSOProfilesLister.list_sso_profiles ⟨"us-east-1", "https://x.awsapps.com/start"⟩
        ⟨[Except.ok ⟨some "111", some "Dev Team"⟩, Except.ok ⟨some "222", some "Prod"⟩],
         fun aid => if aid = "111" then [Except.ok ⟨some [⟨some "Admin"⟩]⟩]
                    else [Except.ok ⟨some [⟨some "Viewer"⟩]⟩]⟩
      = Except.ok
          [⟨"111", "Dev Team", "Admin", "https://x.awsapps.com/start", "us-east-1"⟩,
           ⟨"222", "Prod", "Viewer", "https://x.awsapps.com/start", "us-east-1"⟩] :=
  (@discover_order_and_content ⟨"us-east-1", "https://x.awsapps.com/start"⟩
    ⟨[Except.ok ⟨some "111", some "Dev Team"⟩, Except.ok ⟨some "222", some "Prod"⟩],
     fun aid => if aid = "111" then [Except.ok ⟨some [⟨some "Admin"⟩]⟩]
                else [Except.ok ⟨some [⟨some "Viewer"⟩]⟩]⟩ rfl).trans (by rfl)

theorem discoverAccounts_append {l : SSOProfilesLister} {prov : Provider} :
    ∀ {u v : List (Except String AccountInfo)} {x : List SSOProfile},
    discoverAccounts l prov u = Except.ok x →
    discoverAccounts l prov (u ++ v) =
      match discoverAccounts l prov v with
      | Except.error e => Except.error e
      | Except.ok rest => Except.ok (x ++ rest) := by
  intro u
  induction u with
  | nil =>
    intro v x hok
    have hx : Except.ok ([] : List SSOProfile) = Except.ok x := hok
    injection hx with hx
    subst hx
    rw [List.nil_append]
    cases hd : discoverAccounts l prov v with
    | error e => rfl
    | ok rest => simp
  | cons ev u ih =>
    intro v x hok
    cases ev with
    | error e => exact Except.noConfusion hok
    | ok a =>
      cases hid : a.account_id with
      | none =>
        simp only [discoverAccounts, hid] at hok
        exact Except.noConfusion hok
      | some aid =>
        cases hname : a.account_name with
        | none =>
          simp only [discoverAccounts, hid, hname] at hok
          exact Except.noConfusion hok
        | some aname =>
          cases hpp : profilesFromPages l aid aname (prov.roles aid) with
          | error e =>
            simp only [discoverAccounts, hid, hname, hpp] at hok
            exact Except.noConfusion hok
          | ok here =>
            cases hrest : discoverAccounts l prov u with
            | error e =>
              simp only [discoverAccounts, hid, hname, hpp, hrest] at hok
              exact Except.noConfusion hok
            | ok rest1 =>
              simp only [discoverAccounts, hid, hname, hpp, hrest] at hok
              injection hok with hx
              subst hx
              rw [List.cons_append]
              simp only [discoverAccounts, hid, hname, hpp, ih hrest]
              cases hd : discoverAccounts l prov v with
              | error e => rfl
              | ok rest2 => simp [List.append_assoc]

/-- C2: fail-fast discovery — whenever the account stream splits into a
prefix that processes cleanly (producing some profiles x) and a remainder
whose processing fails (a failed page fetch or a failed validation, at any
position), discovery returns that error and no profile list at all: the
already-accumulated x is discarded, and the model's result is an `Except` —
a complete list or an error, never a partial list. -/
theorem discover_fail_fast {l : SSOProfilesLister} {prov : Provider}
    {u v : List (Except String AccountInfo)} {x : List SSOProfile} {e : String}
    (hacc : prov.accounts = u ++ v)
    (hok : discoverAccounts l prov u = Except.ok x)
    (herr : discoverAccounts l prov v = Except.error e) :
    l.list_sso_profiles prov = Except.error e := by
  show discoverAccounts l prov prov.accounts = Except.error e
  rw [hacc, discoverAccounts_append hok, herr]

/-- C2 witness: the second of three accounts yields a role-listing error;
discovery surfaces exactly that error although the first account produced a
profile. -/
theorem discover_fail_fast_witness :
    SSOProfilesLister.list_sso_profiles ⟨"r", "u"⟩
        ⟨[Except.ok ⟨some "111", some "A"⟩, Except.ok ⟨some "222", some "B"⟩,
          Except.ok ⟨some "333", some "C"⟩],
         fun aid => if aid = "222" then [Except.error "role listing failed"]
                    else [Except.ok ⟨some [⟨some "Admin"⟩]⟩]⟩
      = Except.error "role listing failed" :=
  @discover_fail_fast ⟨"r", "u"⟩
    ⟨[Except.ok ⟨some "111", some "A"⟩, Except.ok ⟨some "222", some "B"⟩,
      Except.ok ⟨some "333", some "C"⟩],
     fun aid => if aid = "222" then [Except.error "role listing failed"]
                else [Except.ok ⟨some [⟨some "Admin"⟩]⟩]⟩
    [Except.ok ⟨some "111", some "A"⟩]
    [Except.ok ⟨some "222", some "B"⟩, Except.ok ⟨some "333", some "C"⟩]
    [⟨"111", "A", "Admin", "u", "r"⟩] "role listing failed"
    rfl (by rfl) (by rfl)

/-- C3 counterexample: an account whose id and name are present but EMPTY
strings, with a role whose name is the empty string, passes validation —
discovery succeeds and the empty fields appear verbatim in the profile,
refuting the claim that empty-string fields are rejected with an error. -/
theorem discover_empty_fields_counterexample :
    SSOProfilesLister.list_sso_profiles ⟨"us-east-1", "https://x/start"⟩
        ⟨[Except.ok ⟨some "", some ""⟩], fun _ => [Except.ok ⟨some [⟨some ""⟩]⟩]⟩
      = Except.ok [⟨"", "", "", "https://x/start", "us-east-1"⟩] := by
  rfl

/-- C3 amended: discovery's validation rejects ABSENT fields — a missing
account id, account name, role list, or role name aborts with the matching
protocol error — but it does not reject empty strings: every provider script
whose items are all fetched and whose fields are all present (empty or not)
discovers successfully. -/
theorem discovery_rejects_absent_not_empty :
    (∀ (l : SSOProfilesLister) (prov : Provider) (a : AccountInfo) evs,
      prov.accounts = Except.ok a :: evs → a.account_id = none →
      l.list_sso_profiles prov = Except.error "Account id is missing") ∧
    (∀ (l : SSOProfilesLister) (prov : Provider) (a : AccountInfo) evs i,
      prov.accounts = Except.ok a :: evs → a.account_id = some i →
      a.account_name = none →
      l.list_sso_profiles prov = Except.error "Account is missing its name") ∧
    (∀ (l : SSOProfilesLister) (prov : Provider) (a : AccountInfo) evs i n pg pgs,
      prov.accounts = Except.ok a :: evs → a.account_id = some i →
      a.account_name = some n → prov.roles i = Except.ok pg :: pgs →
      pg.role_list = none →
      l.list_sso_profiles prov = Except.error "Role list not available") ∧
    (∀ (l : SSOProfilesLister) (prov : Provider) (a : AccountInfo) evs i n pg pgs r rs,
      prov.accounts = Except.ok a :: evs → a.account_id = some i →
      a.account_name = some n → prov.roles i = Except.ok pg :: pgs →
      pg.role_list = some (r :: rs) → r.role_name = none →
      l.list_sso_profiles prov = Except.error "Role does not have a name") ∧
    (∀ (l : SSOProfilesLister) (prov : Provider),
      wellFormed prov = true → ∃ x, l.list_sso_profiles prov = Except.ok x) := by
  refine ⟨?_, ?_, ?_, ?_, ?_⟩
  · intro l prov a evs hacc hid
    simp only [SSOProfilesLister.list_sso_profiles, hacc, discoverAccounts, hid]
  · intro l prov a evs i hacc hid hname
    simp only [SSOProfilesLister.list_sso_profiles, hacc, discoverAccounts, hid, hname]
  · intro l prov a evs i n pg pgs hacc hid hname hpgs hrl
    simp only [SSOProfilesLister.list_sso_profiles, hacc, discoverAccounts, hid, hname,
      hpgs, profilesFromPages, hrl]
  · intro l prov a evs i n pg pgs r rs hacc hid hname hpgs hrl hr
    simp only [SSOProfilesLister.list_sso_profiles, hacc, discoverAccounts, hid, hname,
      hpgs, profilesFromPages, hrl, profilesFromRoles, hr]
  · intro l prov h
    exact ⟨expectedOutput l prov, discoverAccounts_of_good h⟩

/-- C3 amended witness: an absent (not empty) account id is rejected with the
protocol error, at a concrete provider. -/
theorem discovery_rejects_absent_not_empty_witness :
    SSOProfilesLister.list_sso_profiles ⟨"r", "u"⟩
        ⟨[Except.ok ⟨none, some "Dev"⟩], fun _ => []⟩
      = Except.error "Account id is missing" :=
  discovery_rejects_absent_not_empty.1 ⟨"r", "u"⟩
    ⟨[Except.ok ⟨none, some "Dev"⟩], fun _ => []⟩ ⟨none, some "Dev"⟩ [] rfl rfl
